import Mathlib

/-!
Verification of `langchain_core/runnables/utils.py`: the addable-merge
accumulator (`AddableDict.__add__`, `add`, `aadd`), the bounded-concurrency
executor (`gated_coro`, `gather_with_concurrency`) and the run-log
patch-to-event translator (`as_event_stream`).

Python values are embedded as the inductive `Value`; Python dicts are
insertion-ordered association lists; fallible operations (`d[k]`,
`raise AssertionError`, `None.copy()`) return `Except PyErr`.
-/

set_option maxHeartbeats 1000000

/-- A Python value: `None`, bool, int, str, list or dict. -/
inductive Value where
  | null
  | bool (b : Bool)
  | num (n : Int)
  | str (s : String)
  | list (xs : List Value)
  | dict (kvs : List (String × Value))

/-- Test `v is None`. -/
def isNull : Value → Bool
  | .null => true
  | _ => false

/-- Test `isinstance(v, dict)`. -/
def isDict : Value → Bool
  | .dict _ => true
  | _ => false

/-- A Python dict with string keys: insertion-ordered association list. -/
abbrev PyDict := List (String × Value)

/-- Python exceptions raised by the embedded code. -/
inductive PyErr where
  | keyError (k : String)
  | typeError
  | assertionError (msg : String)
  | attributeError
deriving DecidableEq

/-- Dict lookup `d[k]` returning `none` when the key is absent. -/
def dGet : PyDict → String → Option Value
  | [], _ => none
  | (k, v) :: rest, key => if k = key then some v else dGet rest key

/-- Dict assignment `d[k] = v`: update in place when the key exists, else
append (Python insertion order). -/
def dSet : PyDict → String → Value → PyDict
  | [], key, v => [(key, v)]
  | (k, w) :: rest, key, v =>
      if k = key then (k, v) :: rest else (k, w) :: dSet rest key v

/-- Deletion `del d[k]`: remove the key. -/
def dDel : PyDict → String → PyDict
  | [], _ => []
  | (k, w) :: rest, key =>
      if k = key then dDel rest key else (k, w) :: dDel rest key

/-- Membership test `k in d`. -/
def hasKey (d : PyDict) (k : String) : Bool := (dGet d k).isSome

/-- Python truthiness of a value. -/
def pyTruthy : Value → Bool
  | .null => false
  | .bool b => b
  | .num n => n != 0
  | .str s => s != ""
  | .list xs => !xs.isEmpty
  | .dict d => !d.isEmpty

/-- Stringification used by f-strings (only scalar cases matter here). -/
def pyStr : Value → String
  | .null => "None"
  | .bool true => "True"
  | .bool false => "False"
  | .num n => toString n
  | .str s => s
  | .list _ => "<list>"
  | .dict _ => "<dict>"

/-- Subscript expression `d[k]`: raises `KeyError` when the key is absent. -/
def dGetE (d : PyDict) (k : String) : Except PyErr Value :=
  match dGet d k with
  | some v => .ok v
  | none => .error (.keyError k)

mutual

/-- Python `a + b` on embedded values: ints add, strings and lists
concatenate, dicts merge per `AddableDict.__add__`; any other pairing
raises `TypeError`. -/
def pyAdd : Value → Value → Except PyErr Value
  | .num a, .num b => .ok (.num (a + b))
  | .str a, .str b => .ok (.str (a ++ b))
  | .list a, .list b => .ok (.list (a ++ b))
  | .dict a, .dict b => .ok (.dict (dictAdd a b))
  | _, _ => .error .typeError
termination_by _ b => (sizeOf b, 0)
decreasing_by
  all_goals simp_wf
  all_goals apply Prod.Lex.left
  all_goals omega

/-- The key loop of `AddableDict.__add__`: `chunk = AddableDict(self)`, then for each key of
`other`: absent-or-`None` keys are overwritten; otherwise, if `other`'s value
is not `None`, try the values' `+` and fall back to `other`'s value on
`TypeError`. -/
def dictAdd (acc : PyDict) : PyDict → PyDict
  | [] => acc
  | (k, v) :: rest =>
      dictAdd
        (match dGet acc k with
         | none => acc ++ [(k, v)]
         | some cv =>
           if isNull cv then dSet acc k v
           else if isNull v then acc
           else
             match pyAdd cv v with
             | .ok added => dSet acc k added
             | .error _ => dSet acc k v) rest
termination_by l => (sizeOf l, 1)
decreasing_by
  all_goals simp_wf
  all_goals apply Prod.Lex.left
  all_goals omega

end

/-- One step of `AddableDict.__add__`'s key loop, for a single key of the
right-hand dict. -/
def mergeOne (acc : PyDict) (k : String) (v : Value) : PyDict :=
  match dGet acc k with
  | none => acc ++ [(k, v)]
  | some cv =>
    if isNull cv then dSet acc k v
    else if isNull v then acc
    else
      match pyAdd cv v with
      | .ok added => dSet acc k added
      | .error _ => dSet acc k v

/-- Fold `add(addables)`: fold a sequence with `+`, `None` accumulator for the
empty sequence. -/
def add (addables : List Value) : Except PyErr (Option Value) :=
  addables.foldlM
    (fun final chunk =>
      match final with
      | none => Except.ok (some chunk)
      | some f => (pyAdd f chunk).map some)
    none

/-- Fold `aadd(addables)`: the asynchronous fold; the async iteration is embedded
as iteration over the list of produced chunks, so the body coincides with
`add`. -/
def aadd (addables : List Value) : Except PyErr (Option Value) :=
  addables.foldlM
    (fun final chunk =>
      match final with
      | none => Except.ok (some chunk)
      | some f => (pyAdd f chunk).map some)
    none

/-- The accumulator's combine with the empty marker (`None` accumulator)
admitted on either side: the step function of `add` extended to an optional
right operand. -/
def combine : Option Value → Option Value → Except PyErr (Option Value)
  | none, b => .ok b
  | some a, none => .ok (some a)
  | some a, some b => (pyAdd a b).map some

/-- A single op of a `RunLogPatch`: a slash-delimited path and a value,
semantically an add/replace at that path. -/
structure RunLogOp where
  path : String
  value : Value

/-- A `RunLogPatch`: the list of ops carried by one patch. -/
structure RunLogPatch where
  ops : List RunLogOp

/-- An emitted `StreamEvent`. -/
structure StreamEvent where
  event : String
  name : Value
  run_id : Value
  tags : Value
  metadata : Value
  data : PyDict

/-- Python `str.split("/")`: character-level splitter (structural, so that
concrete translator runs reduce in the kernel). -/
def splitCh : List Char → List (List Char)
  | [] => [[]]
  | c :: rest =>
    match splitCh rest with
    | [] => [[]]
    | seg :: segs =>
      if c = '/' then [] :: seg :: segs else (c :: seg) :: segs

/-- Python `path.split("/")` for the slash separator. -/
def pySplitSlash (s : String) : List String :=
  (splitCh s.data).map (fun cs => String.mk cs)

/-- Python `s.startswith(pre)`. -/
def pyStartsWith (s pre : String) : Bool :=
  pre.data.isPrefixOf s.data

/-- Modelled from the spec: applying one op's path to the state tree.
`RunLog.__add__` (from `langchain_core.tracers`, not under `src/`) applies
each op at its slash-delimited path, an add/replace; a trailing `-` appends
to a list (spec section 8 example). Malformed paths are not validated. -/
def setPath : Value → List String → Value → Value
  | target, [], _ => target
  | .list xs, ["-"], v => .list (xs ++ [v])
  | .dict d, [k], v => .dict (dSet d k v)
  | .dict d, k :: rest, v =>
      .dict (dSet d k (setPath ((dGet d k).getD (.dict [])) rest v))
  | target, _, _ => target

/-- Modelled from the spec: apply one op to the root state dict. -/
def applyOp (st : PyDict) (op : RunLogOp) : PyDict :=
  match setPath (.dict st) ((pySplitSlash op.path).drop 1) op.value with
  | .dict d => d
  | _ => st

/-- Modelled from the spec: the root run-state created when the first patch
arrives. Spec section 3: the root mirrors the sub-run fields (`inputs`,
`final_output`, `streamed_output`, `end_time`, `name`, `type`, `tags`,
`metadata`) plus the `logs` mapping; `id` is only present once a patch
assigns it. -/
def initRootState : PyDict :=
  [("logs", .dict []), ("streamed_output", .list []), ("final_output", .null),
   ("inputs", .null), ("end_time", .null), ("name", .str ""),
   ("type", .str "chain"), ("tags", .list []), ("metadata", .dict [])]

/-- Modelled from the spec: `run_log + log` (`RunLog.__add__` from
`langchain_core.tracers`, not under `src/`): fold the patch's ops into the
cumulative state, instantiating the tree at the first patch. -/
def mergePatch (st : Option PyDict) (ops : List RunLogOp) : PyDict :=
  ops.foldl applyOp (st.getD initRootState)

/-- Conversion of a value to a dict; subscripting a non-dict raises. -/
def asDict : Value → Except PyErr PyDict
  | .dict d => .ok d
  | _ => .error .typeError

/-- Test for the legacy categories: `log["type"] in {"retriever", "tool", "llm"}`. -/
def isLegacyType : Value → Bool
  | .str s => s = "retriever" || s = "tool" || s = "llm"
  | _ => false

/-- Event-kind classification of a touched sub-run from its merged state
(utils.py:508-516): `end_time is None` and truthy `streamed_output` gives
stream, `end_time is None` otherwise gives start, non-null `end_time`
gives end. -/
def classify (log : PyDict) : Except PyErr String := do
  let et ← dGetE log "end_time"
  if isNull et then do
    let so ← dGetE log "streamed_output"
    if pyTruthy so then pure "stream" else pure "start"
  else
    pure "end"

/-- Start-event data building (utils.py:518-532). Returns the built `data`
dict and the (unchanged) sub-run log. -/
def startBlock (log : PyDict) : Except PyErr (PyDict × PyDict) := do
  let ty ← dGetE log "type"
  if isLegacyType ty then do
    let inputs ← dGetE log "inputs"
    if pyTruthy inputs then
      pure (dSet [] "input" inputs, log)
    else
      pure ([], log)
  else do
    let inputs ← dGetE log "inputs"
    let inputsD ← asDict inputs
    match dGet inputsD "input" with
    | some inp => pure (dSet [] "input" inp, log)
    | none => throw (.keyError "input")

/-- End-event data building (utils.py:534-562). Returns the built `data`
dict and the sub-run log after the `del` drains. -/
def endBlock (log : PyDict) : Except PyErr (PyDict × PyDict) := do
  let ty ← dGetE log "type"
  if isLegacyType ty then do
    let fo ← dGetE log "final_output"
    let data := dSet [] "output" fo
    let log := dDel log "final_output"
    let inputs ← dGetE log "inputs"
    if pyTruthy inputs then
      pure (dSet data "input" inputs, dDel log "inputs")
    else
      pure (data, log)
  else do
    let fo ← dGetE log "final_output"
    let r : PyDict × PyDict :=
      match fo with
      | .null => (dSet [] "output" .null, log)
      | .dict fod =>
          (dSet [] "output" ((dGet fod "output").getD .null),
           dDel log "final_output")
      | _ => ([], log)
    let inputs ← dGetE r.2 "inputs"
    if pyTruthy inputs then do
      let inputsD ← asDict inputs
      match dGet inputsD "input" with
      | some inp => pure (dSet r.1 "input" inp, dDel r.2 "inputs")
      | none => throw (.keyError "input")
    else
      pure r

/-- Stream-event data building (utils.py:564-575): assert exactly one
buffered chunk, emit it as `data.chunk` and drain `streamed_output`. -/
def streamBlock (log : PyDict) : Except PyErr (PyDict × PyDict) := do
  let so ← dGetE log "streamed_output"
  match so with
  | .list chunks =>
      match chunks with
      | [c] =>
          pure (dSet [] "chunk" c, dSet log "streamed_output" (.list []))
      | _ =>
          throw (.assertionError
            ("Expected exactly one chunk of streamed output, got "
              ++ toString chunks.length ++ " instead."))
  | _ => throw .typeError

/-- Yield of the per-touched-path loop (utils.py:577-584): build the
`StreamEvent` from the (possibly drained) sub-run log and the built `data`,
and write the mutated sub-run log back into the state. -/
def emitSub (state : PyDict) (logs : PyDict) (path : String)
    (eventType : String) (r : PyDict × PyDict) :
    Except PyErr (StreamEvent × PyDict) := do
  let ty ← dGetE r.2 "type"
  let name ← dGetE r.2 "name"
  let rid ← dGetE r.2 "id"
  let tags ← dGetE r.2 "tags"
  let md ← dGetE r.2 "metadata"
  pure (⟨"on_" ++ pyStr ty ++ "_" ++ eventType, name, rid, tags, md, r.1⟩,
        dSet state "logs" (.dict (dSet logs path (.dict r.2))))

/-- The body of the per-touched-path loop (utils.py:505-584): classify the
sub-run, build `data` by kind, yield the event, and write the mutated
sub-run log back into the state. -/
def processPath (state : PyDict) (path : String) :
    Except PyErr (StreamEvent × PyDict) := do
  let logs ← asDict (← dGetE state "logs")
  let log ← asDict (← dGetE logs path)
  let eventType ← classify log
  let r ←
    if eventType = "start" then startBlock log
    else if eventType = "end" then endBlock log
    else streamBlock log
  emitSub state logs path eventType r

/-- The per-touched-path loop over all touched paths, in order, threading
the mutated state. -/
def processPaths : PyDict → List String → Except PyErr (List StreamEvent × PyDict)
  | state, [] => .ok ([], state)
  | state, p :: rest => do
    let (ev, state1) ← processPath state p
    let (evs, state2) ← processPaths state1 rest
    pure (ev :: evs, state2)

/-- Set of distinct touched sub-run path segments (utils.py:498-502):
`op["path"].split("/")[2]` for ops whose path starts with `/logs/`; the
Python set is embedded as first-occurrence deduplication. -/
def dedupKeepFirst (l : List String) : List String :=
  l.foldl (fun acc x => if x ∈ acc then acc else acc ++ [x]) []

/-- Touched sub-run path segments of one patch (utils.py:498-502). -/
def touchedPaths (ops : List RunLogOp) : List String :=
  dedupKeepFirst
    (((ops.map RunLogOp.path).filter (fun p => pyStartsWith p "/logs/")).map
      (fun p => (pySplitSlash p).getD 2 ""))

/-- Root start-event check (utils.py:475-496): before the start event has
been yielded, inspect a copy of the merged state; if it has an `id`, yield
one `on_<type>_start` event with empty tags, metadata and input data and
mark the start as yielded. -/
def startCheck (state : PyDict) (yieldedStart : Bool) :
    Except PyErr (List StreamEvent × Bool) := do
  if yieldedStart then
    pure ([], true)
  else
    if hasKey state "id" then do
      let ty ← dGetE state "type"
      let name ← dGetE state "name"
      let rid ← dGetE state "id"
      pure ([⟨"on_" ++ pyStr ty ++ "_start", name, rid, .list [], .dict [], []⟩],
            true)
    else
      pure ([], false)

/-- Root stream check after the sub-run loop (utils.py:586-606): if the
root's `streamed_output` is truthy, apply the single-chunk assertion, drain
it and yield one `on_<type>_stream` event. -/
def rootStreamCheck (state : PyDict) : Except PyErr (List StreamEvent × PyDict) := do
  let so ← dGetE state "streamed_output"
  if pyTruthy so then
    match so with
    | .list chunks =>
        match chunks with
        | [c] => do
            let data := dSet [] "chunk" c
            let state := dSet state "streamed_output" (.list [])
            let ty ← dGetE state "type"
            let name ← dGetE state "name"
            let rid ← dGetE state "id"
            pure ([⟨"on_" ++ pyStr ty ++ "_stream", name, rid,
                    (dGet state "tags").getD (.list []),
                    (dGet state "metadata").getD (.dict []), data⟩], state)
        | _ =>
            throw (.assertionError
              ("Expected exactly one chunk of streamed output, got "
                ++ toString chunks.length ++ " instead."))
    | _ => throw .typeError
  else
    pure ([], state)

/-- Provenance of an emitted event inside `as_event_stream`: the root start
check, the sub-run loop, the root stream check, or the final root end. -/
inductive ETag where
  | rootStart
  | sub
  | rootStream
  | rootEnd
deriving DecidableEq

/-- Test for the sub-run tag. -/
def ETag.isSub : ETag → Bool
  | .sub => true
  | _ => false

/-- Test for the root-start tag. -/
def ETag.isRootStart : ETag → Bool
  | .rootStart => true
  | _ => false

/-- Test for the root-stream tag. -/
def ETag.isRootStream : ETag → Bool
  | .rootStream => true
  | _ => false

/-- Test for the root-end tag. -/
def ETag.isRootEnd : ETag → Bool
  | .rootEnd => true
  | _ => false

/-- Loop accumulator of `as_event_stream`: the optional run-log state
(initially `RunLog(state=None)`), the `yielded_start_event` flag, and the
events yielded so far, each tagged with its provenance. -/
abbrev LoopAcc := Option PyDict × Bool × List (ETag × StreamEvent)

/-- One iteration of the `async for` loop of `as_event_stream`
(utils.py:472-606): merge the patch, run the start check, the per-touched-
path loop and the root stream check, appending the yielded events. -/
def processLog (acc : LoopAcc) (patch : RunLogPatch) : Except PyErr LoopAcc := do
  let st := mergePatch acc.1 patch.ops
  let (evs1, yielded) ← startCheck st acc.2.1
  let (evs2, st2) ← processPaths st (touchedPaths patch.ops)
  let (evs3, st3) ← rootStreamCheck st2
  pure (some st3, yielded,
        acc.2.2 ++ evs1.map (fun e => (ETag.rootStart, e))
          ++ evs2.map (fun e => (ETag.sub, e))
          ++ evs3.map (fun e => (ETag.rootStream, e)))

/-- The whole `async for` loop of `as_event_stream`, starting from
`RunLog(state=None)` and `yielded_start_event = False`. -/
def loopRun (patches : List RunLogPatch) : Except PyErr LoopAcc :=
  patches.foldlM processLog (none, false, [])

/-- The end-of-stream step (utils.py:608-625): copy the final state —
`None.copy()` raises `AttributeError` when no patch ever arrived — force
`tags`/`metadata` to empty, and yield the final end event with
`data.output = state["final_output"]`. -/
def finalStep : Option PyDict → Except PyErr StreamEvent
  | none => .error .attributeError
  | some st => do
    let state := dSet (dSet st "tags" (.list [])) "metadata" (.dict [])
    let fo ← dGetE state "final_output"
    let data := dSet [] "output" fo
    let ty ← dGetE state "type"
    let name ← dGetE state "name"
    let rid ← dGetE state "id"
    let tags ← dGetE state "tags"
    let md ← dGetE state "metadata"
    pure ⟨"on_" ++ pyStr ty ++ "_end", name, rid, tags, md, data⟩

/-- Full `as_event_stream` over a finite patch stream, with each yielded
event tagged by its provenance. -/
def asEventStreamT (patches : List RunLogPatch) :
    Except PyErr (List (ETag × StreamEvent)) := do
  let acc ← loopRun patches
  let e ← finalStep acc.1
  pure (acc.2.2 ++ [(ETag.rootEnd, e)])

/-- Full `as_event_stream` over a finite patch stream: the plain event
sequence, the provenance tags erased. -/
def asEventStream (patches : List RunLogPatch) : Except PyErr (List StreamEvent) :=
  (asEventStreamT patches).map (fun l => l.map Prod.snd)

/-- Invariant of the translator loop tying the `yielded_start_event` flag to
the run-state's `id` and to the root-tagged events emitted so far; it drives
the root-bracketing proof. -/
def LoopInv (acc : LoopAcc) : Prop :=
  (acc.2.1 = true ↔ ∃ st, acc.1 = some st ∧ hasKey st "id" = true) ∧
  (acc.2.2.countP (fun te => te.1.isRootStart) = if acc.2.1 then 1 else 0) ∧
  (∀ te ∈ acc.2.2, te.1 ≠ ETag.rootEnd) ∧
  (acc.2.1 = false → acc.2.2.filter (fun te => !te.1.isSub) = []) ∧
  (acc.2.1 = true → ∃ s mids,
     acc.2.2.filter (fun te => !te.1.isSub) = (ETag.rootStart, s) :: mids ∧
     s.data = [] ∧ ∀ m ∈ mids, m.1 = ETag.rootStream)

/-- State of the bounded-concurrency executor: the semaphore's available
permits and the numbers of gated (pending), running and finished tasks. -/
structure GatherState where
  avail : Nat
  running : Nat
  pending : Nat
  done : Nat
deriving DecidableEq

/-- Modelled from the spec: the scheduling semantics of `gated_coro` under
`asyncio.Semaphore` (external library semantics, not under `src/`), as a
small-step transition system. A pending task is admitted only when a permit
is available (`async with semaphore`); a finishing task releases its
permit. -/
inductive GStep : GatherState → GatherState → Prop where
  | acquire : ∀ s, 0 < s.avail → 0 < s.pending →
      GStep s ⟨s.avail - 1, s.running + 1, s.pending - 1, s.done⟩
  | release : ∀ s, 0 < s.running →
      GStep s ⟨s.avail + 1, s.running - 1, s.pending, s.done + 1⟩

/-- Initial executor state for `gather_with_concurrency(n, *coros)` with a
positive limit: `asyncio.Semaphore(n)` holds `n` permits, every task is
pending. -/
def gatherInit (limit tasks : Nat) : GatherState :=
  ⟨limit, 0, tasks, 0⟩

/-- Reachability in the executor's transition system. -/
def GReach (limit tasks : Nat) (s : GatherState) : Prop :=
  Relation.ReflTransGen GStep (gatherInit limit tasks) s

/-- Modelled from the spec: `asyncio.gather` (external library, not under
`src/`) awaits all coroutines and returns their results in input order. -/
def gather {α : Type} (coros : List (Unit → α)) : List α :=
  coros.map (fun c => c ())

/-- Value-level result of `gather_with_concurrency` (utils.py:52-59): with
`n` absent, delegate to plain `gather`; with a limit, wrap each coroutine
in `gated_coro` sharing one semaphore — the gate affects scheduling only
(see `GStep`), not the returned values. -/
def gather_with_concurrency {α : Type} (n : Option Nat) (coros : List (Unit → α)) :
    List α :=
  match n with
  | none => gather coros
  | some _ => gather coros

theorem dGet_dSet_self (d : PyDict) (k : String) (v : Value) :
    dGet (dSet d k v) k = some v := by
  induction d with
  | nil => simp [dGet, dSet]
  | cons kv rest ih =>
    obtain ⟨k', w⟩ := kv
    by_cases hk : k' = k <;> simp [dGet, dSet, hk, ih]

theorem dGet_dSet_ne (d : PyDict) (k k' : String) (v : Value) (h : k ≠ k') :
    dGet (dSet d k v) k' = dGet d k' := by
  induction d with
  | nil => simp [dGet, dSet, h]
  | cons kv rest ih =>
    obtain ⟨k0, w⟩ := kv
    by_cases hk : k0 = k
    · subst hk
      simp [dGet, dSet, h]
    · simp [dGet, dSet, hk, ih]

theorem dGet_dDel_self (d : PyDict) (k : String) :
    dGet (dDel d k) k = none := by
  induction d with
  | nil => simp [dGet, dDel]
  | cons kv rest ih =>
    obtain ⟨k0, w⟩ := kv
    by_cases hk : k0 = k <;> simp [dGet, dDel, hk, ih]

theorem dGet_dDel_ne (d : PyDict) (k k' : String) (h : k ≠ k') :
    dGet (dDel d k) k' = dGet d k' := by
  induction d with
  | nil => simp [dGet, dDel]
  | cons kv rest ih =>
    obtain ⟨k0, w⟩ := kv
    by_cases hk : k0 = k
    · subst hk
      simp [dGet, dDel, h, ih, Ne.symm h]
    · by_cases hk' : k0 = k' <;> simp [dGet, dDel, hk, hk', ih, Ne.symm h]

theorem classify_of_end_time_null (log : PyDict) (so : Value)
    (het : dGet log "end_time" = some .null)
    (hso : dGet log "streamed_output" = some so) :
    classify log = .ok (if pyTruthy so then "stream" else "start") := by
  simp [classify, dGetE, het, hso, isNull, bind, Except.bind, pure, Except.pure]
  split <;> rfl

theorem classify_of_end_time_set (log : PyDict) (et : Value)
    (het : dGet log "end_time" = some et) (hn : isNull et = false) :
    classify log = .ok "end" := by
  simp [classify, dGetE, het, hn, bind, Except.bind, pure, Except.pure]

theorem emitSub_ok_shape (state logs : PyDict) (path eventType : String)
    (r : PyDict × PyDict) (ev : StreamEvent) (st' : PyDict)
    (h : emitSub state logs path eventType r = .ok (ev, st')) :
    ∃ ty, dGet r.2 "type" = some ty ∧
      ev.event = "on_" ++ pyStr ty ++ "_" ++ eventType ∧ ev.data = r.1 ∧
      st' = dSet state "logs" (.dict (dSet logs path (.dict r.2))) := by
  simp only [emitSub, bind, Except.bind, dGetE] at h
  cases hty : dGet r.2 "type" with
  | none => simp [hty] at h
  | some ty =>
    simp only [hty] at h
    cases hname : dGet r.2 "name" with
    | none => simp [hname] at h
    | some nm =>
      simp only [hname] at h
      cases hid : dGet r.2 "id" with
      | none => simp [hid] at h
      | some rid =>
        simp only [hid] at h
        cases htags : dGet r.2 "tags" with
        | none => simp [htags] at h
        | some tags =>
          simp only [htags] at h
          cases hmd : dGet r.2 "metadata" with
          | none => simp [hmd] at h
          | some md =>
            simp only [hmd, pure, Except.pure, Except.ok.injEq, Prod.mk.injEq] at h
            exact ⟨ty, rfl, by rw [← h.1], by rw [← h.1], h.2.symm⟩

theorem processPath_classify (state : PyDict) (path : String)
    (ev : StreamEvent) (st' : PyDict)
    (h : processPath state path = .ok (ev, st')) :
    ∃ logs log k,
      dGet state "logs" = some (.dict logs) ∧
      dGet logs path = some (.dict log) ∧
      classify log = .ok k ∧
      (∃ ty, ev.event = "on_" ++ pyStr ty ++ "_" ++ k) := by
  simp only [processPath, bind, Except.bind, dGetE, asDict] at h
  cases hlogs : dGet state "logs" with
  | none => simp [hlogs] at h
  | some logsV =>
    simp only [hlogs] at h
    cases logsV with
    | dict logs =>
      simp only at h
      cases hlog : dGet logs path with
      | none => simp [hlog] at h
      | some logV =>
        simp only [hlog] at h
        cases logV with
        | dict log =>
          simp only at h
          cases hc : classify log with
          | error e => simp [hc] at h
          | ok k =>
            simp only [hc] at h
            refine ⟨logs, log, k, rfl, hlog, hc, ?_⟩
            split at h
            · cases hb : startBlock log with
              | error e => simp [hb] at h
              | ok r =>
                simp only [hb] at h
                obtain ⟨ty, _, hev, _, _⟩ := emitSub_ok_shape _ _ _ _ _ _ _ h
                exact ⟨ty, hev⟩
            · split at h
              · cases hb : endBlock log with
                | error e => simp [hb] at h
                | ok r =>
                  simp only [hb] at h
                  obtain ⟨ty, _, hev, _, _⟩ := emitSub_ok_shape _ _ _ _ _ _ _ h
                  exact ⟨ty, hev⟩
              · cases hb : streamBlock log with
                | error e => simp [hb] at h
                | ok r =>
                  simp only [hb] at h
                  obtain ⟨ty, _, hev, _, _⟩ := emitSub_ok_shape _ _ _ _ _ _ _ h
                  exact ⟨ty, hev⟩
        | _ => simp at h
    | _ => simp at h

/-- C1: for every patch merged by the translator and every touched sub-run
path, the emitted event kind is determined solely by the sub-run's merged
state: `end_time` null with non-empty `streamed_output` gives `stream`,
`end_time` null with empty `streamed_output` gives `start`, and non-null
`end_time` gives `end`. -/
theorem subrun_event_kind_by_merged_state
    (state : PyDict) (path : String) (ev : StreamEvent) (st' : PyDict)
    (h : processPath state path = .ok (ev, st')) :
    ∃ logs log k ty,
      dGet state "logs" = some (.dict logs) ∧
      dGet logs path = some (.dict log) ∧
      ev.event = "on_" ++ pyStr ty ++ "_" ++ k ∧
      (dGet log "end_time" = some .null →
        ∀ so, dGet log "streamed_output" = some so →
          k = (if pyTruthy so then "stream" else "start")) ∧
      (∀ et, dGet log "end_time" = some et → isNull et = false → k = "end") := by
  obtain ⟨logs, log, k, hlogs, hlog, hc, ty, hev⟩ :=
    processPath_classify state path ev st' h
  refine ⟨logs, log, k, ty, hlogs, hlog, hev, ?_, ?_⟩
  · intro het so hso
    have hcc := classify_of_end_time_null log so het hso
    rw [hc] at hcc
    exact (Except.ok.injEq _ _).mp hcc
  · intro et het hn
    have hcc := classify_of_end_time_set log et het hn
    rw [hc] at hcc
    exact (Except.ok.injEq _ _).mp hcc

/-- Witness for C1 at a concrete touched sub-run in the stream state. -/
theorem subrun_event_kind_witness :
    ∃ ev st',
      processPath
        [("logs", Value.dict [("a", Value.dict
          [("id", .str "s1"), ("name", .str "sub"), ("type", .str "chain"),
           ("tags", .list []), ("metadata", .dict []),
           ("inputs", .dict [("input", .str "x")]),
           ("final_output", .null), ("streamed_output", .list [.str "c1"]),
           ("end_time", .null)])])] "a" = .ok (ev, st') ∧
      ∃ logs log k ty,
        dGet [("logs", Value.dict [("a", Value.dict
          [("id", .str "s1"), ("name", .str "sub"), ("type", .str "chain"),
           ("tags", .list []), ("metadata", .dict []),
           ("inputs", .dict [("input", .str "x")]),
           ("final_output", .null), ("streamed_output", .list [.str "c1"]),
           ("end_time", .null)])])] "logs" = some (.dict logs) ∧
        dGet logs "a" = some (.dict log) ∧
        ev.event = "on_" ++ pyStr ty ++ "_" ++ k ∧
        (dGet log "end_time" = some .null →
          ∀ so, dGet log "streamed_output" = some so →
            k = (if pyTruthy so then "stream" else "start")) ∧
        (∀ et, dGet log "end_time" = some et → isNull et = false → k = "end") :=
  ⟨_, _, rfl, subrun_event_kind_by_merged_state _ _ _ _ rfl⟩

/-- C2: whenever the translator classifies a touched sub-run, or the root
after the sub-run events, as a stream event, it checks that
`streamed_output` holds exactly one chunk: any other count raises a fatal
`AssertionError` that aborts translation, and a count of one emits the
chunk as `data.chunk` and drains `streamed_output` to empty. -/
theorem stream_single_chunk_invariant :
    (∀ log chunks, dGet log "streamed_output" = some (.list chunks) →
      ((chunks.length ≠ 1 →
          streamBlock log = .error (.assertionError
            ("Expected exactly one chunk of streamed output, got "
              ++ toString chunks.length ++ " instead."))) ∧
       (∀ c, chunks = [c] →
          streamBlock log =
            .ok (dSet [] "chunk" c, dSet log "streamed_output" (.list []))))) ∧
    (∀ state chunks, dGet state "streamed_output" = some (.list chunks) →
      ((chunks ≠ [] → chunks.length ≠ 1 →
          rootStreamCheck state = .error (.assertionError
            ("Expected exactly one chunk of streamed output, got "
              ++ toString chunks.length ++ " instead."))) ∧
       (∀ c, chunks = [c] → ∀ evs st',
          rootStreamCheck state = .ok (evs, st') →
          ∃ e, evs = [e] ∧ e.data = dSet [] "chunk" c ∧
            st' = dSet state "streamed_output" (.list [])))) := by
  constructor
  · intro log chunks hso
    constructor
    · intro hlen
      match chunks, hlen with
      | [], _ => simp [streamBlock, dGetE, hso, bind, Except.bind, throw, throwThe, MonadExceptOf.throw]
      | c1 :: c2 :: rest, _ =>
          simp [streamBlock, dGetE, hso, bind, Except.bind, throw, throwThe, MonadExceptOf.throw]
      | [c], hlen => simp at hlen
    · rintro c rfl
      simp [streamBlock, dGetE, hso, bind, Except.bind, pure, Except.pure]
  · intro state chunks hrso
    constructor
    · intro hne hlen
      match chunks, hne, hlen with
      | c1 :: c2 :: rest, _, _ =>
          simp [rootStreamCheck, dGetE, hrso, bind, Except.bind, pyTruthy, throw, throwThe, MonadExceptOf.throw]
      | [c], _, hlen => simp at hlen
    · rintro c rfl evs st' h
      simp only [rootStreamCheck, dGetE, hrso, bind, Except.bind, pyTruthy] at h
      simp only [List.isEmpty_cons, Bool.not_false, if_true] at h
      cases hty : dGet (dSet state "streamed_output" (.list [])) "type" with
      | none => simp [hty] at h
      | some ty =>
        simp only [hty] at h
        cases hname : dGet (dSet state "streamed_output" (.list [])) "name" with
        | none => simp [hname] at h
        | some nm =>
          simp only [hname] at h
          cases hid : dGet (dSet state "streamed_output" (.list [])) "id" with
          | none => simp [hid] at h
          | some rid =>
            simp only [hid, pure, Except.pure, Except.ok.injEq, Prod.mk.injEq] at h
            exact ⟨_, h.1.symm, rfl, h.2.symm⟩

/-- Witness for C2: a two-chunk buffer raises, a singleton buffer is
emitted and drained, for the sub-run block and the root check alike. -/
theorem stream_single_chunk_witness :
    (streamBlock [("streamed_output", Value.list [.str "a", .str "b"])] =
      .error (.assertionError
        ("Expected exactly one chunk of streamed output, got "
          ++ toString (2 : Nat) ++ " instead."))) ∧
    (streamBlock [("streamed_output", Value.list [.str "a"])] =
      .ok (dSet [] "chunk" (.str "a"),
           dSet [("streamed_output", Value.list [.str "a"])]
             "streamed_output" (.list []))) ∧
    (rootStreamCheck [("streamed_output", Value.list [.str "a", .str "b"])] =
      .error (.assertionError
        ("Expected exactly one chunk of streamed output, got "
          ++ toString (2 : Nat) ++ " instead."))) ∧
    (∃ e evs st',
      rootStreamCheck [("streamed_output", Value.list [.str "c"]),
        ("type", .str "chain"), ("name", .str "r"), ("id", .str "rid")] =
        .ok (evs, st') ∧
      evs = [e] ∧ e.data = dSet [] "chunk" (.str "c") ∧
      st' = dSet [("streamed_output", Value.list [.str "c"]),
        ("type", .str "chain"), ("name", .str "r"), ("id", .str "rid")]
        "streamed_output" (.list [])) := by
  refine ⟨(stream_single_chunk_invariant.1
            [("streamed_output", Value.list [.str "a", .str "b"])]
            [.str "a", .str "b"] rfl).1 (by decide),
          (stream_single_chunk_invariant.1
            [("streamed_output", Value.list [.str "a"])]
            [.str "a"] rfl).2 (.str "a") rfl,
          (stream_single_chunk_invariant.2
            [("streamed_output", Value.list [.str "a", .str "b"])]
            [.str "a", .str "b"] rfl).1 (by simp) (by decide),
          ?_⟩
  obtain ⟨e, h1, h2, h3⟩ :=
    (stream_single_chunk_invariant.2
      [("streamed_output", Value.list [.str "c"]), ("type", .str "chain"),
       ("name", .str "r"), ("id", .str "rid")]
      [.str "c"] rfl).2 (.str "c") rfl _ _ rfl
  exact ⟨e, _, _, rfl, h1, h2, h3⟩

/-- C4: for every sub-run start event, legacy categories (retriever, tool,
llm) set `data.input` to the sub-run's inputs only when they are present
(truthy) and leave them in place; every other category sets `data.input` to
`inputs["input"]`. -/
theorem start_event_input_data :
    (∀ log ty inputs, dGet log "type" = some ty → isLegacyType ty = true →
      dGet log "inputs" = some inputs →
      ((pyTruthy inputs = true →
          startBlock log = .ok (dSet [] "input" inputs, log)) ∧
       (pyTruthy inputs = false → startBlock log = .ok ([], log)))) ∧
    (∀ log ty inputsD inp, dGet log "type" = some ty → isLegacyType ty = false →
      dGet log "inputs" = some (.dict inputsD) →
      dGet inputsD "input" = some inp →
      startBlock log = .ok (dSet [] "input" inp, log)) := by
  constructor
  · intro log ty inputs hty hleg hinp
    constructor
    · intro htr
      simp [startBlock, dGetE, hty, hleg, hinp, htr, bind, Except.bind, pure,
        Except.pure]
    · intro htr
      simp [startBlock, dGetE, hty, hleg, hinp, htr, bind, Except.bind, pure,
        Except.pure]
  · intro log ty inputsD inp hty hleg hinp hii
    simp [startBlock, dGetE, hty, hleg, hinp, hii, asDict, bind, Except.bind,
      pure, Except.pure]

/-- Witness for C4: a legacy tool with truthy inputs, a legacy tool with
empty inputs, and a new-style chain. -/
theorem start_event_input_data_witness :
    (startBlock [("type", .str "tool"), ("inputs", .dict [("q", .str "v")])] =
      .ok (dSet [] "input" (.dict [("q", .str "v")]),
           [("type", .str "tool"), ("inputs", .dict [("q", .str "v")])])) ∧
    (startBlock [("type", .str "tool"), ("inputs", .dict [])] =
      .ok ([], [("type", .str "tool"), ("inputs", .dict [])])) ∧
    (startBlock [("type", .str "chain"), ("inputs", .dict [("input", .str "x")])] =
      .ok (dSet [] "input" (.str "x"),
           [("type", .str "chain"), ("inputs", .dict [("input", .str "x")])])) :=
  ⟨(start_event_input_data.1
      [("type", .str "tool"), ("inputs", .dict [("q", .str "v")])]
      (.str "tool") (.dict [("q", .str "v")]) rfl rfl rfl).1 rfl,
   (start_event_input_data.1
      [("type", .str "tool"), ("inputs", .dict [])]
      (.str "tool") (.dict []) rfl rfl rfl).2 rfl,
   start_event_input_data.2
      [("type", .str "chain"), ("inputs", .dict [("input", .str "x")])]
      (.str "chain") [("input", .str "x")] (.str "x") rfl rfl rfl rfl⟩

/-- C5: for every sub-run end event: legacy categories set `data.output` to
`final_output` and clear it, and surface then clear truthy inputs as
`data.input`; new-style categories map a null `final_output` to a null
`data.output`, a mapping to `final_output["output"]` with `final_output`
cleared, and any other shape to no output key at all, surfacing
`inputs["input"]` and clearing inputs when present. -/
theorem end_event_output_data :
    (∀ log ty fo inputs, dGet log "type" = some ty → isLegacyType ty = true →
      dGet log "final_output" = some fo → dGet log "inputs" = some inputs →
      ((pyTruthy inputs = true →
          endBlock log = .ok (dSet (dSet [] "output" fo) "input" inputs,
            dDel (dDel log "final_output") "inputs")) ∧
       (pyTruthy inputs = false →
          endBlock log = .ok (dSet [] "output" fo, dDel log "final_output")))) ∧
    (∀ log ty inputs, dGet log "type" = some ty → isLegacyType ty = false →
      dGet log "final_output" = some .null → dGet log "inputs" = some inputs →
      ((pyTruthy inputs = false →
          endBlock log = .ok (dSet [] "output" .null, log)) ∧
       (∀ inputsD inp, inputs = .dict inputsD → pyTruthy inputs = true →
          dGet inputsD "input" = some inp →
          endBlock log = .ok (dSet (dSet [] "output" .null) "input" inp,
            dDel log "inputs")))) ∧
    (∀ log ty fod inputs, dGet log "type" = some ty → isLegacyType ty = false →
      dGet log "final_output" = some (.dict fod) → dGet log "inputs" = some inputs →
      ((pyTruthy inputs = false →
          endBlock log = .ok (dSet [] "output" ((dGet fod "output").getD .null),
            dDel log "final_output")) ∧
       (∀ inputsD inp, inputs = .dict inputsD → pyTruthy inputs = true →
          dGet inputsD "input" = some inp →
          endBlock log =
            .ok (dSet (dSet [] "output" ((dGet fod "output").getD .null))
                   "input" inp,
                 dDel (dDel log "final_output") "inputs")))) ∧
    (∀ log ty fo inputs, dGet log "type" = some ty → isLegacyType ty = false →
      dGet log "final_output" = some fo → isNull fo = false → isDict fo = false →
      dGet log "inputs" = some inputs →
      ((pyTruthy inputs = false → endBlock log = .ok ([], log)) ∧
       (∀ inputsD inp, inputs = .dict inputsD → pyTruthy inputs = true →
          dGet inputsD "input" = some inp →
          endBlock log = .ok (dSet [] "input" inp, dDel log "inputs")))) := by
  have hdel : ∀ (log : PyDict), dGet (dDel log "final_output") "inputs"
      = dGet log "inputs" := fun log => dGet_dDel_ne log _ _ (by decide)
  refine ⟨?_, ?_, ?_, ?_⟩
  · intro log ty fo inputs hty hleg hfo hinp
    constructor
    · intro htr
      simp [endBlock, dGetE, hty, hleg, hfo, hdel, hinp, htr, bind,
        Except.bind, pure, Except.pure]
    · intro htr
      simp [endBlock, dGetE, hty, hleg, hfo, hdel, hinp, htr, bind,
        Except.bind, pure, Except.pure]
  · intro log ty inputs hty hleg hfo hinp
    constructor
    · intro htr
      simp [endBlock, dGetE, hty, hleg, hfo, hinp, htr, bind, Except.bind,
        pure, Except.pure]
    · rintro inputsD inp rfl htr hii
      simp [endBlock, dGetE, hty, hleg, hfo, hinp, htr, hii, asDict, bind,
        Except.bind, pure, Except.pure]
  · intro log ty fod inputs hty hleg hfo hinp
    constructor
    · intro htr
      simp [endBlock, dGetE, hty, hleg, hfo, hdel, hinp, htr, bind,
        Except.bind, pure, Except.pure]
    · rintro inputsD inp rfl htr hii
      simp [endBlock, dGetE, hty, hleg, hfo, hdel, hinp, htr, hii, asDict,
        bind, Except.bind, pure, Except.pure]
  · intro log ty fo inputs hty hleg hfo hnn hnd hinp
    constructor
    · intro htr
      cases fo <;> simp_all [endBlock, dGetE, isNull, isDict, bind,
        Except.bind, pure, Except.pure]
    · rintro inputsD inp rfl htr hii
      cases fo <;> simp_all [endBlock, dGetE, isNull, isDict, asDict, bind,
        Except.bind, pure, Except.pure]

/-- Witness for C5: a legacy llm end with inputs, a new-style end with null
output, a new-style end with mapping output and inputs, and a new-style end
with an unrecognized output shape. -/
theorem end_event_output_data_witness :
    (endBlock [("type", .str "llm"), ("final_output", .str "out"),
               ("inputs", .dict [("q", .str "v")])] =
      .ok ([("output", .str "out"), ("input", .dict [("q", .str "v")])],
           [("type", .str "llm")])) ∧
    (endBlock [("type", .str "chain"), ("final_output", .null),
               ("inputs", .dict [])] =
      .ok ([("output", .null)],
           [("type", .str "chain"), ("final_output", .null),
            ("inputs", .dict [])])) ∧
    (endBlock [("type", .str "chain"),
               ("final_output", .dict [("output", .str "done")]),
               ("inputs", .dict [("input", .str "x")])] =
      .ok ([("output", .str "done"), ("input", .str "x")],
           [("type", .str "chain")])) ∧
    (endBlock [("type", .str "chain"), ("final_output", .str "weird"),
               ("inputs", .dict [])] =
      .ok ([], [("type", .str "chain"), ("final_output", .str "weird"),
                ("inputs", .dict [])])) :=
  ⟨(end_event_output_data.1
      [("type", .str "llm"), ("final_output", .str "out"),
       ("inputs", .dict [("q", .str "v")])]
      (.str "llm") (.str "out") (.dict [("q", .str "v")]) rfl rfl rfl rfl).1 rfl,
   (end_event_output_data.2.1
      [("type", .str "chain"), ("final_output", .null), ("inputs", .dict [])]
      (.str "chain") (.dict []) rfl rfl rfl rfl).1 rfl,
   (end_event_output_data.2.2.1
      [("type", .str "chain"), ("final_output", .dict [("output", .str "done")]),
       ("inputs", .dict [("input", .str "x")])]
      (.str "chain") [("output", .str "done")] (.dict [("input", .str "x")])
      rfl rfl rfl rfl).2 [("input", .str "x")] (.str "x") rfl rfl rfl,
   (end_event_output_data.2.2.2
      [("type", .str "chain"), ("final_output", .str "weird"),
       ("inputs", .dict [])]
      (.str "chain") (.str "weird") (.dict []) rfl rfl rfl rfl rfl rfl).1 rfl⟩

/-- C6: after an end event has been emitted for a sub-run, no further chunk
or output data for that sub-run is re-emitted: reprocessing the sub-run
with its consumed fields as the drain left them (and `end_time` still set)
classifies as end again and either raises on the missing drained keys or
emits data with no chunk, no input, and at most a null output. -/
theorem drain_idempotence_after_end
    (log data1 log' : PyDict)
    (h : endBlock log = .ok (data1, log'))
    (log2 : PyDict) (et : Value)
    (hty : dGet log2 "type" = dGet log "type")
    (hfo : dGet log2 "final_output" = dGet log' "final_output")
    (hin : dGet log2 "inputs" = dGet log' "inputs")
    (het : dGet log2 "end_time" = some et) (hetn : isNull et = false) :
    classify log2 = .ok "end" ∧
    ((∃ err, endBlock log2 = .error err) ∨
     (∃ data2 log2', endBlock log2 = .ok (data2, log2') ∧
        dGet data2 "chunk" = none ∧
        dGet data2 "input" = none ∧
        (dGet data2 "output" = none ∨ dGet data2 "output" = some .null))) := by
  refine ⟨classify_of_end_time_set log2 et het hetn, ?_⟩
  have hdfi : ∀ (d : PyDict), dGet (dDel d "final_output") "inputs"
      = dGet d "inputs" := fun d => dGet_dDel_ne d _ _ (by decide)
  have hdif : ∀ (d : PyDict), dGet (dDel d "inputs") "final_output"
      = dGet d "final_output" := fun d => dGet_dDel_ne d _ _ (by decide)
  simp only [endBlock, bind, Except.bind, dGetE] at h
  cases hty0 : dGet log "type" with
  | none => simp [hty0] at h
  | some ty =>
    have hty2 : dGet log2 "type" = some ty := hty.trans hty0
    simp only [hty0] at h
    by_cases hleg : isLegacyType ty = true
    · -- legacy: final_output is always deleted, so the second end errors
      simp only [hleg, if_true] at h
      cases hfo0 : dGet log "final_output" with
      | none => simp [hfo0] at h
      | some fo =>
        simp only [hfo0] at h
        cases hin0 : dGet (dDel log "final_output") "inputs" with
        | none => simp [hin0] at h
        | some inputs =>
          simp only [hin0] at h
          have hlog' : dGet log' "final_output" = none := by
            by_cases htr : pyTruthy inputs = true
            · simp only [htr, if_true, pure, Except.pure, Except.ok.injEq,
                Prod.mk.injEq] at h
              rw [← h.2, dGet_dDel_ne _ _ _ (by decide), dGet_dDel_self]
            · rw [if_neg htr] at h
              simp only [pure, Except.pure, Except.ok.injEq,
                Prod.mk.injEq] at h
              rw [← h.2, dGet_dDel_self]
          left
          refine ⟨.keyError "final_output", ?_⟩
          simp [endBlock, dGetE, hty2, hleg, hfo.trans hlog', bind, Except.bind]
    · -- new style
      have hlegf : isLegacyType ty = false := eq_false_of_ne_true hleg
      simp only [hlegf, if_false, Bool.false_eq_true] at h
      cases hfo0 : dGet log "final_output" with
      | none => simp [hfo0] at h
      | some fo =>
        simp only [hfo0] at h
        cases fo with
        | null =>
          simp only at h
          cases hin0 : dGet log "inputs" with
          | none => simp [hin0] at h
          | some inputs =>
            simp only [hin0] at h
            by_cases htr : pyTruthy inputs = true
            · -- inputs drained: second end errors looking up inputs
              rw [if_pos htr] at h
              cases inputs with
              | dict inputsD =>
                simp only [asDict, bind, Except.bind] at h
                cases hii : dGet inputsD "input" with
                | none => simp [hii] at h
                | some inp =>
                  simp only [hii, pure, Except.pure, Except.ok.injEq,
                    Prod.mk.injEq] at h
                  left
                  refine ⟨.keyError "inputs", ?_⟩
                  have hfo2 : dGet log2 "final_output" = some .null := by
                    rw [hfo, ← h.2, hdif, hfo0]
                  have hin2 : dGet log2 "inputs" = none := by
                    rw [hin, ← h.2, dGet_dDel_self]
                  simp [endBlock, dGetE, hty2, hlegf, hfo2, hin2, bind,
                    Except.bind]
              | _ => simp [asDict, bind, Except.bind] at h
            · -- inputs left falsy: second end emits output null again
              rw [if_neg htr] at h
              simp only [pure, Except.pure, Except.ok.injEq,
                Prod.mk.injEq] at h
              right
              have hfo2 : dGet log2 "final_output" = some .null := by
                rw [hfo, ← h.2, hfo0]
              have hin2 : dGet log2 "inputs" = some inputs := by
                rw [hin, ← h.2, hin0]
              refine ⟨dSet [] "output" .null, log2, ?_, rfl, rfl, Or.inr rfl⟩
              simp [endBlock, dGetE, hty2, hlegf, hfo2, hin2,
                eq_false_of_ne_true htr, bind, Except.bind, pure, Except.pure]
        | dict fod =>
          simp only at h
          cases hin0 : dGet (dDel log "final_output") "inputs" with
          | none => simp [hin0] at h
          | some inputs =>
            simp only [hin0] at h
            have hlog' : dGet log' "final_output" = none := by
              by_cases htr : pyTruthy inputs = true
              · rw [if_pos htr] at h
                cases inputs with
                | dict inputsD =>
                  simp only [asDict, bind, Except.bind] at h
                  cases hii : dGet inputsD "input" with
                  | none => simp [hii] at h
                  | some inp =>
                    simp only [hii, pure, Except.pure, Except.ok.injEq,
                      Prod.mk.injEq] at h
                    rw [← h.2, dGet_dDel_ne _ _ _ (by decide), dGet_dDel_self]
                | _ => simp [asDict, bind, Except.bind] at h
              · rw [if_neg htr] at h
                simp only [pure, Except.pure, Except.ok.injEq,
                  Prod.mk.injEq] at h
                rw [← h.2, dGet_dDel_self]
            left
            refine ⟨.keyError "final_output", ?_⟩
            simp [endBlock, dGetE, hty2, hlegf, hfo.trans hlog', bind,
              Except.bind]
        | str s =>
          simp only at h
          cases hin0 : dGet log "inputs" with
          | none => simp [hin0] at h
          | some inputs =>
            simp only [hin0] at h
            by_cases htr : pyTruthy inputs = true
            · rw [if_pos htr] at h
              cases inputs with
              | dict inputsD =>
                simp only [asDict, bind, Except.bind] at h
                cases hii : dGet inputsD "input" with
                | none => simp [hii] at h
                | some inp =>
                  simp only [hii, pure, Except.pure, Except.ok.injEq,
                    Prod.mk.injEq] at h
                  left
                  refine ⟨.keyError "inputs", ?_⟩
                  have hfo2 : dGet log2 "final_output" = some (.str s) := by
                    rw [hfo, ← h.2, hdif, hfo0]
                  have hin2 : dGet log2 "inputs" = none := by
                    rw [hin, ← h.2, dGet_dDel_self]
                  simp [endBlock, dGetE, hty2, hlegf, hfo2, hin2, bind,
                    Except.bind]
              | _ => simp [asDict, bind, Except.bind] at h
            · rw [if_neg htr] at h
              simp only [pure, Except.pure, Except.ok.injEq,
                Prod.mk.injEq] at h
              right
              have hfo2 : dGet log2 "final_output" = some (.str s) := by
                rw [hfo, ← h.2, hfo0]
              have hin2 : dGet log2 "inputs" = some inputs := by
                rw [hin, ← h.2, hin0]
              refine ⟨[], log2, ?_, rfl, rfl, Or.inl rfl⟩
              simp [endBlock, dGetE, hty2, hlegf, hfo2, hin2,
                eq_false_of_ne_true htr, bind, Except.bind, pure, Except.pure]
        | bool b =>
          simp only at h
          cases hin0 : dGet log "inputs" with
          | none => simp [hin0] at h
          | some inputs =>
            simp only [hin0] at h
            by_cases htr : pyTruthy inputs = true
            · rw [if_pos htr] at h
              cases inputs with
              | dict inputsD =>
                simp only [asDict, bind, Except.bind] at h
                cases hii : dGet inputsD "input" with
                | none => simp [hii] at h
                | some inp =>
                  simp only [hii, pure, Except.pure, Except.ok.injEq,
                    Prod.mk.injEq] at h
                  left
                  refine ⟨.keyError "inputs", ?_⟩
                  have hfo2 : dGet log2 "final_output" = some (.bool b) := by
                    rw [hfo, ← h.2, hdif, hfo0]
                  have hin2 : dGet log2 "inputs" = none := by
                    rw [hin, ← h.2, dGet_dDel_self]
                  simp [endBlock, dGetE, hty2, hlegf, hfo2, hin2, bind,
                    Except.bind]
              | _ => simp [asDict, bind, Except.bind] at h
            · rw [if_neg htr] at h
              simp only [pure, Except.pure, Except.ok.injEq,
                Prod.mk.injEq] at h
              right
              have hfo2 : dGet log2 "final_output" = some (.bool b) := by
                rw [hfo, ← h.2, hfo0]
              have hin2 : dGet log2 "inputs" = some inputs := by
                rw [hin, ← h.2, hin0]
              refine ⟨[], log2, ?_, rfl, rfl, Or.inl rfl⟩
              simp [endBlock, dGetE, hty2, hlegf, hfo2, hin2,
                eq_false_of_ne_true htr, bind, Except.bind, pure, Except.pure]
        | num n =>
          simp only at h
          cases hin0 : dGet log "inputs" with
          | none => simp [hin0] at h
          | some inputs =>
            simp only [hin0] at h
            by_cases htr : pyTruthy inputs = true
            · rw [if_pos htr] at h
              cases inputs with
              | dict inputsD =>
                simp only [asDict, bind, Except.bind] at h
                cases hii : dGet inputsD "input" with
                | none => simp [hii] at h
                | some inp =>
                  simp only [hii, pure, Except.pure, Except.ok.injEq,
                    Prod.mk.injEq] at h
                  left
                  refine ⟨.keyError "inputs", ?_⟩
                  have hfo2 : dGet log2 "final_output" = some (.num n) := by
                    rw [hfo, ← h.2, hdif, hfo0]
                  have hin2 : dGet log2 "inputs" = none := by
                    rw [hin, ← h.2, dGet_dDel_self]
                  simp [endBlock, dGetE, hty2, hlegf, hfo2, hin2, bind,
                    Except.bind]
              | _ => simp [asDict, bind, Except.bind] at h
            · rw [if_neg htr] at h
              simp only [pure, Except.pure, Except.ok.injEq,
                Prod.mk.injEq] at h
              right
              have hfo2 : dGet log2 "final_output" = some (.num n) := by
                rw [hfo, ← h.2, hfo0]
              have hin2 : dGet log2 "inputs" = some inputs := by
                rw [hin, ← h.2, hin0]
              refine ⟨[], log2, ?_, rfl, rfl, Or.inl rfl⟩
              simp [endBlock, dGetE, hty2, hlegf, hfo2, hin2,
                eq_false_of_ne_true htr, bind, Except.bind, pure, Except.pure]
        | list xs =>
          simp only at h
          cases hin0 : dGet log "inputs" with
          | none => simp [hin0] at h
          | some inputs =>
            simp only [hin0] at h
            by_cases htr : pyTruthy inputs = true
            · rw [if_pos htr] at h
              cases inputs with
              | dict inputsD =>
                simp only [asDict, bind, Except.bind] at h
                cases hii : dGet inputsD "input" with
                | none => simp [hii] at h
                | some inp =>
                  simp only [hii, pure, Except.pure, Except.ok.injEq,
                    Prod.mk.injEq] at h
                  left
                  refine ⟨.keyError "inputs", ?_⟩
                  have hfo2 : dGet log2 "final_output" = some (.list xs) := by
                    rw [hfo, ← h.2, hdif, hfo0]
                  have hin2 : dGet log2 "inputs" = none := by
                    rw [hin, ← h.2, dGet_dDel_self]
                  simp [endBlock, dGetE, hty2, hlegf, hfo2, hin2, bind,
                    Except.bind]
              | _ => simp [asDict, bind, Except.bind] at h
            · rw [if_neg htr] at h
              simp only [pure, Except.pure, Except.ok.injEq,
                Prod.mk.injEq] at h
              right
              have hfo2 : dGet log2 "final_output" = some (.list xs) := by
                rw [hfo, ← h.2, hfo0]
              have hin2 : dGet log2 "inputs" = some inputs := by
                rw [hin, ← h.2, hin0]
              refine ⟨[], log2, ?_, rfl, rfl, Or.inl rfl⟩
              simp [endBlock, dGetE, hty2, hlegf, hfo2, hin2,
                eq_false_of_ne_true htr, bind, Except.bind, pure, Except.pure]

/-- Witness for C6: an ended legacy sub-run whose drains happened; touching
it again errors rather than re-emitting the consumed output. -/
theorem drain_idempotence_witness :
    classify [("type", Value.str "llm"), ("end_time", Value.str "t")] =
      .ok "end" ∧
    ((∃ err, endBlock [("type", Value.str "llm"), ("end_time", Value.str "t")] =
        .error err) ∨
     (∃ data2 log2',
        endBlock [("type", Value.str "llm"), ("end_time", Value.str "t")] =
          .ok (data2, log2') ∧
        dGet data2 "chunk" = none ∧
        dGet data2 "input" = none ∧
        (dGet data2 "output" = none ∨ dGet data2 "output" = some .null))) :=
  drain_idempotence_after_end
    [("type", .str "llm"), ("final_output", .str "out"),
     ("inputs", .dict [("q", .str "v")]), ("end_time", .str "t")]
    [("output", .str "out"), ("input", .dict [("q", .str "v")])]
    [("type", .str "llm"), ("end_time", .str "t")]
    rfl
    [("type", .str "llm"), ("end_time", .str "t")]
    (.str "t") rfl rfl rfl rfl rfl

theorem dGet_append_single (acc : PyDict) (k k' : String) (v : Value)
    (h : k' ≠ k) : dGet (acc ++ [(k', v)]) k = dGet acc k := by
  induction acc with
  | nil => simp [dGet, h]
  | cons kv rest ih =>
    obtain ⟨k0, w⟩ := kv
    by_cases hk : k0 = k <;> simp [dGet, hk, ih]

theorem dictAdd_cons (acc : PyDict) (k : String) (v : Value) (rest : PyDict) :
    dictAdd acc ((k, v) :: rest) = dictAdd (mergeOne acc k v) rest := by
  rw [dictAdd, mergeOne]

theorem dGet_mergeOne_ne (acc : PyDict) (k k' : String) (v : Value)
    (h : k' ≠ k) : dGet (mergeOne acc k' v) k = dGet acc k := by
  unfold mergeOne
  cases dGet acc k' with
  | none =>
    exact dGet_append_single acc k k' v h
  | some cv =>
    by_cases hcv : isNull cv = true
    · simp [hcv, dGet_dSet_ne _ _ _ _ h]
    · simp only [hcv, Bool.false_eq_true, if_false, eq_false_of_ne_true hcv]
      by_cases hv : isNull v = true
      · simp [hv]
      · simp only [hv, Bool.false_eq_true, if_false, eq_false_of_ne_true hv]
        cases pyAdd cv v <;> simp [dGet_dSet_ne _ _ _ _ h]

theorem dGet_dictAdd_notin (acc d2 : PyDict) (k : String)
    (h : k ∉ d2.map Prod.fst) : dGet (dictAdd acc d2) k = dGet acc k := by
  induction d2 generalizing acc with
  | nil =>
    rw [dictAdd]
  | cons kv rest ih =>
    obtain ⟨k0, w⟩ := kv
    simp only [List.map_cons, List.mem_cons, not_or] at h
    rw [dictAdd_cons, ih _ h.2, dGet_mergeOne_ne _ _ _ _ (Ne.symm h.1)]

/-- C7: `add` and `aadd` return the empty marker (`None`) on an empty
sequence; the empty marker is a two-sided identity for the fold's combine;
folding a singleton returns its element unchanged. -/
theorem accumulator_fold_identity :
    add [] = .ok none ∧
    aadd [] = .ok none ∧
    (∀ x, add [x] = .ok (some x)) ∧
    (∀ x, aadd [x] = .ok (some x)) ∧
    (∀ a b, combine a b = add (a.toList ++ b.toList)) ∧
    (∀ x, combine none x = .ok x) ∧
    (∀ x, combine x none = .ok x) := by
  refine ⟨rfl, rfl, fun x => rfl, fun x => rfl, ?_, ?_, ?_⟩
  · intro a b
    cases a with
    | none => cases b <;> rfl
    | some av =>
      cases b with
      | none => rfl
      | some bv =>
        show (pyAdd av bv).map some = _
        cases h : pyAdd av bv <;>
          simp [h, add, List.foldlM, bind, Except.bind, Except.map, pure,
            Except.pure]
  · intro x
    cases x <;> rfl
  · intro x
    cases x <;> rfl

/-- C8 counterexample: the claim says the combine used by the accumulator
fold never raises on a type mismatch, but `add([1, "a"])` raises a
`TypeError` (the try/except lives only inside `AddableDict.__add__`). -/
theorem fold_mismatch_counterexample :
    add [Value.num 1, Value.str "a"] = .error .typeError := by
  simp [add, List.foldlM, pyAdd, Except.map, bind, Except.bind]

/-- C8 (amended): override-on-mismatch holds per shared key inside the
mapping combine `AddableDict.__add__` — a shared key whose values fail to
combine maps to the right operand's value — while the top-level fold
propagates the `TypeError` for a combine-incompatible pair. -/
theorem addable_dict_override_on_mismatch
    (d1 d2 : PyDict) (k : String) (v1 v2 : Value)
    (h1 : dGet d1 k = some v1) (h2 : dGet d2 k = some v2)
    (hnd : (d2.map Prod.fst).Nodup)
    (hn1 : isNull v1 = false) (hn2 : isNull v2 = false)
    (hmm : pyAdd v1 v2 = .error .typeError) :
    dGet (dictAdd d1 d2) k = some v2 ∧
    pyAdd (.dict d1) (.dict d2) = .ok (.dict (dictAdd d1 d2)) ∧
    add [v1, v2] = .error .typeError := by
  refine ⟨?_, ?_, ?_⟩
  · induction d2 generalizing d1 with
    | nil => simp [dGet] at h2
    | cons kv rest ih =>
      obtain ⟨k0, w⟩ := kv
      simp only [List.map_cons, List.nodup_cons] at hnd
      by_cases hk : k0 = k
      · subst hk
        simp only [dGet, if_pos rfl, if_true, Option.some.injEq] at h2
        cases h2
        rw [dictAdd_cons, dGet_dictAdd_notin _ _ _ hnd.1]
        unfold mergeOne
        rw [h1]
        simp [hn1, hn2, hmm, dGet_dSet_self]
      · simp only [dGet, if_neg hk] at h2
        rw [dictAdd_cons]
        exact ih (mergeOne d1 k0 w)
          ((dGet_mergeOne_ne d1 k k0 w hk).trans h1) h2 hnd.2
  · simp [pyAdd]
  · simp [add, List.foldlM, bind, Except.bind, hmm, Except.map]

/-- Witness for the amended C8 at `{"k": 1} + {"k": "a"}`. -/
theorem addable_dict_override_witness :
    dGet (dictAdd [("k", Value.num 1)] [("k", Value.str "a")]) "k" =
      some (Value.str "a") ∧
    pyAdd (.dict [("k", Value.num 1)]) (.dict [("k", Value.str "a")]) =
      .ok (.dict (dictAdd [("k", Value.num 1)] [("k", Value.str "a")])) ∧
    add [Value.num 1, Value.str "a"] = .error .typeError :=
  addable_dict_override_on_mismatch [("k", .num 1)] [("k", .str "a")] "k"
    (.num 1) (.str "a") rfl rfl (by simp) rfl rfl (by simp [pyAdd])

/-- C10: with an empty patch stream the loop leaves the run-state as the
initial null `RunLog(state=None)` and the end-of-stream step fails with an
error inspecting that null state (`None.copy()` raises `AttributeError`)
instead of emitting the final root end event. -/
theorem empty_stream_final_end_error :
    loopRun [] = .ok (none, false, []) ∧
    finalStep none = .error .attributeError ∧
    asEventStream [] = .error .attributeError :=
  ⟨rfl, rfl, rfl⟩

/-- C9: with a positive limit, every reachable state of the gated executor
has at most `limit` tasks running; with no limit, all tasks are gathered
and the results preserve input order. -/
theorem bounded_executor_ceiling :
    (∀ limit tasks s, 0 < limit → GReach limit tasks s → s.running ≤ limit) ∧
    (∀ (coros : List (Unit → Nat)),
      gather_with_concurrency none coros = coros.map (fun c => c ())) := by
  constructor
  · have hinv : ∀ limit tasks s, GReach limit tasks s →
        s.avail + s.running = limit := by
      intro limit tasks s hr
      induction hr with
      | refl => simp [gatherInit]
      | tail hab hbc ih =>
        cases hbc with
        | acquire h1 h2 => simp; omega
        | release h1 => simp; omega
    intro limit tasks s hpos hreach
    have h := hinv limit tasks s hreach
    omega
  · intro coros
    rfl

/-- Witness for C9: with limit 1 and one task, the state after one
admission has 1 ≤ 1 running tasks. -/
theorem bounded_executor_ceiling_witness :
    (⟨0, 1, 0, 0⟩ : GatherState).running ≤ 1 :=
  bounded_executor_ceiling.1 1 1 ⟨0, 1, 0, 0⟩ (by decide)
    (Relation.ReflTransGen.single
      (GStep.acquire ⟨1, 0, 1, 0⟩ (by decide) (by decide)))

theorem startCheck_ok (state : PyDict) (y : Bool) (evs1 : List StreamEvent)
    (y' : Bool) (h : startCheck state y = .ok (evs1, y')) :
    (y = true → evs1 = [] ∧ y' = true) ∧
    (y = false → hasKey state "id" = false → evs1 = [] ∧ y' = false) ∧
    (y = false → hasKey state "id" = true →
      y' = true ∧ ∃ s, evs1 = [s] ∧ s.data = []) := by
  refine ⟨?_, ?_, ?_⟩
  · rintro rfl
    simp only [startCheck, if_pos rfl, if_true, pure, Except.pure,
      Except.ok.injEq, Prod.mk.injEq] at h
    exact ⟨h.1.symm, h.2.symm⟩
  · rintro rfl hid
    simp only [startCheck, Bool.false_eq_true, if_false, hid, pure,
      Except.pure, Except.ok.injEq, Prod.mk.injEq] at h
    exact ⟨h.1.symm, h.2.symm⟩
  · rintro rfl hid
    simp only [startCheck, Bool.false_eq_true, if_false, hid, if_true, bind,
      Except.bind, dGetE] at h
    cases hty : dGet state "type" with
    | none => simp [hty] at h
    | some ty =>
      simp only [hty] at h
      cases hname : dGet state "name" with
      | none => simp [hname] at h
      | some nm =>
        simp only [hname] at h
        cases hrid : dGet state "id" with
        | none => simp [hrid] at h
        | some rid =>
          simp only [hrid, pure, Except.pure, Except.ok.injEq,
            Prod.mk.injEq] at h
          exact ⟨h.2.symm, ⟨_, h.1.symm, rfl⟩⟩

theorem processPath_state_shape (state : PyDict) (path : String)
    (ev : StreamEvent) (st' : PyDict)
    (h : processPath state path = .ok (ev, st')) :
    ∃ logs d, dGet state "logs" = some (.dict logs) ∧
      st' = dSet state "logs" (.dict d) := by
  simp only [processPath, bind, Except.bind, dGetE, asDict] at h
  cases hlogs : dGet state "logs" with
  | none => simp [hlogs] at h
  | some logsV =>
    simp only [hlogs] at h
    cases logsV with
    | dict logs =>
      simp only at h
      cases hlog : dGet logs path with
      | none => simp [hlog] at h
      | some logV =>
        simp only [hlog] at h
        cases logV with
        | dict log =>
          simp only at h
          cases hc : classify log with
          | error e => simp [hc] at h
          | ok k =>
            simp only [hc] at h
            split at h
            · cases hb : startBlock log with
              | error e => simp [hb] at h
              | ok r =>
                simp only [hb] at h
                obtain ⟨ty, _, _, _, hst⟩ := emitSub_ok_shape _ _ _ _ _ _ _ h
                exact ⟨logs, _, rfl, hst⟩
            · split at h
              · cases hb : endBlock log with
                | error e => simp [hb] at h
                | ok r =>
                  simp only [hb] at h
                  obtain ⟨ty, _, _, _, hst⟩ := emitSub_ok_shape _ _ _ _ _ _ _ h
                  exact ⟨logs, _, rfl, hst⟩
              · cases hb : streamBlock log with
                | error e => simp [hb] at h
                | ok r =>
                  simp only [hb] at h
                  obtain ⟨ty, _, _, _, hst⟩ := emitSub_ok_shape _ _ _ _ _ _ _ h
                  exact ⟨logs, _, rfl, hst⟩
        | _ => simp at h
    | _ => simp at h

theorem processPath_preserves (state : PyDict) (path : String)
    (ev : StreamEvent) (st' : PyDict)
    (h : processPath state path = .ok (ev, st')) (k : String)
    (hk : k ≠ "logs") : dGet st' k = dGet state k := by
  obtain ⟨logs, d, _, hst⟩ := processPath_state_shape state path ev st' h
  rw [hst, dGet_dSet_ne _ _ _ _ (Ne.symm hk)]

theorem processPaths_preserves (ps : List String) (st : PyDict)
    (evs : List StreamEvent) (st' : PyDict)
    (h : processPaths st ps = .ok (evs, st')) (k : String)
    (hk : k ≠ "logs") : dGet st' k = dGet st k := by
  induction ps generalizing st evs with
  | nil =>
    simp only [processPaths, Except.ok.injEq, Prod.mk.injEq] at h
    rw [← h.2]
  | cons p rest ih =>
    simp only [processPaths, bind, Except.bind] at h
    cases h1 : processPath st p with
    | error e => simp [h1] at h
    | ok r1 =>
      obtain ⟨ev1, st1⟩ := r1
      simp only [h1] at h
      cases h2 : processPaths st1 rest with
      | error e => simp [h2] at h
      | ok r2 =>
        obtain ⟨evs2, st2⟩ := r2
        simp only [h2, pure, Except.pure, Except.ok.injEq, Prod.mk.injEq] at h
        rw [h.2] at h2
        rw [ih st1 evs2 h2, processPath_preserves st p ev1 st1 h1 k hk]

theorem rootStreamCheck_ok (state : PyDict) (evs : List StreamEvent)
    (st' : PyDict) (h : rootStreamCheck state = .ok (evs, st')) :
    (evs = [] ∧ st' = state) ∨
    (∃ e, evs = [e] ∧ hasKey state "id" = true ∧
      st' = dSet state "streamed_output" (.list [])) := by
  simp only [rootStreamCheck, bind, Except.bind, dGetE] at h
  cases hso : dGet state "streamed_output" with
  | none => simp [hso] at h
  | some so =>
    simp only [hso] at h
    by_cases htr : pyTruthy so = true
    · rw [if_pos htr] at h
      cases so with
      | list chunks =>
        cases chunks with
        | nil => simp [pyTruthy] at htr
        | cons c crest =>
          cases crest with
          | nil =>
            simp only at h
            cases hty : dGet (dSet state "streamed_output" (.list [])) "type" with
            | none => simp [hty] at h
            | some ty =>
              simp only [hty] at h
              cases hname : dGet (dSet state "streamed_output" (.list [])) "name" with
              | none => simp [hname] at h
              | some nm =>
                simp only [hname] at h
                cases hrid : dGet (dSet state "streamed_output" (.list [])) "id" with
                | none => simp [hrid] at h
                | some rid =>
                  simp only [hrid, pure, Except.pure, Except.ok.injEq,
                    Prod.mk.injEq] at h
                  right
                  refine ⟨_, h.1.symm, ?_, h.2.symm⟩
                  rw [dGet_dSet_ne _ _ _ _ (by decide)] at hrid
                  simp [hasKey, hrid]
          | cons c2 crest2 =>
            simp [throw, throwThe, MonadExceptOf.throw] at h
      | null => simp [pyTruthy] at htr
      | bool b =>
        simp only at h
        simp [throw, throwThe, MonadExceptOf.throw] at h
      | num n =>
        simp only at h
        simp [throw, throwThe, MonadExceptOf.throw] at h
      | str s =>
        simp only at h
        simp [throw, throwThe, MonadExceptOf.throw] at h
      | dict d =>
        simp only at h
        simp [throw, throwThe, MonadExceptOf.throw] at h
    · rw [if_neg htr] at h
      simp only [pure, Except.pure, Except.ok.injEq, Prod.mk.injEq] at h
      exact Or.inl ⟨h.1.symm, h.2.symm⟩

theorem finalStep_ok_shape (st : PyDict) (e : StreamEvent)
    (h : finalStep (some st) = .ok e) :
    e.tags = Value.list [] ∧ e.metadata = Value.dict [] ∧
    dGet e.data "output" = dGet st "final_output" ∧
    hasKey st "id" = true := by
  simp only [finalStep, bind, Except.bind, dGetE] at h
  have hfo' : dGet (dSet (dSet st "tags" (.list [])) "metadata" (.dict []))
      "final_output" = dGet st "final_output" := by
    rw [dGet_dSet_ne _ _ _ _ (by decide), dGet_dSet_ne _ _ _ _ (by decide)]
  have htags' : dGet (dSet (dSet st "tags" (.list [])) "metadata" (.dict []))
      "tags" = some (.list []) := by
    rw [dGet_dSet_ne _ _ _ _ (by decide), dGet_dSet_self]
  have hmd' : dGet (dSet (dSet st "tags" (.list [])) "metadata" (.dict []))
      "metadata" = some (.dict []) := by
    rw [dGet_dSet_self]
  rw [hfo', htags', hmd'] at h
  cases hfo : dGet st "final_output" with
  | none => simp [hfo] at h
  | some fo =>
    simp only [hfo] at h
    cases hty : dGet (dSet (dSet st "tags" (.list [])) "metadata" (.dict []))
        "type" with
    | none => simp [hty] at h
    | some ty =>
      simp only [hty] at h
      cases hname : dGet (dSet (dSet st "tags" (.list []))
          "metadata" (.dict [])) "name" with
      | none => simp [hname] at h
      | some nm =>
        simp only [hname] at h
        cases hrid : dGet (dSet (dSet st "tags" (.list []))
            "metadata" (.dict [])) "id" with
        | none => simp [hrid] at h
        | some rid =>
          simp only [hrid, pure, Except.pure, Except.ok.injEq] at h
          rw [dGet_dSet_ne _ _ _ _ (by decide),
            dGet_dSet_ne _ _ _ _ (by decide)] at hrid
          rw [← h]
          exact ⟨rfl, rfl, by simp [dGet_dSet_self, hfo, dGet],
            by simp [hasKey, hrid]⟩

theorem filter_tag_map_sub (l : List StreamEvent) :
    (l.map (fun e => (ETag.sub, e))).filter (fun te => !te.1.isSub) = [] := by
  induction l with
  | nil => rfl
  | cons e rest ih => simp [List.filter, ETag.isSub, ih]

theorem filter_tag_map_stream (l : List StreamEvent) :
    (l.map (fun e => (ETag.rootStream, e))).filter (fun te => !te.1.isSub) =
      l.map (fun e => (ETag.rootStream, e)) := by
  induction l with
  | nil => rfl
  | cons e rest ih => simp [List.filter, ETag.isSub, ih]

theorem countP_start_map_sub (l : List StreamEvent) :
    (l.map (fun e => (ETag.sub, e))).countP (fun te => te.1.isRootStart) = 0 := by
  induction l with
  | nil => rfl
  | cons e rest ih => simp [List.countP_cons, ETag.isRootStart, ih]

theorem countP_start_map_stream (l : List StreamEvent) :
    (l.map (fun e => (ETag.rootStream, e))).countP
      (fun te => te.1.isRootStart) = 0 := by
  induction l with
  | nil => rfl
  | cons e rest ih => simp [List.countP_cons, ETag.isRootStart, ih]

theorem hasKey_dSet (d : PyDict) (k k' : String) (v : Value)
    (h : hasKey d k = true) : hasKey (dSet d k' v) k = true := by
  by_cases hk : k' = k
  · subst hk
    simp [hasKey, dGet_dSet_self]
  · simpa [hasKey, dGet_dSet_ne _ _ _ _ hk] using h

theorem setPath_dict_shape (segs : List String) (v : Value) (st : PyDict) :
    setPath (.dict st) segs v = .dict st ∨
    ∃ k' w, setPath (.dict st) segs v = .dict (dSet st k' w) := by
  cases segs with
  | nil => left; rfl
  | cons k rest =>
    cases rest with
    | nil => right; exact ⟨k, v, rfl⟩
    | cons k2 rest2 => right; exact ⟨k, _, rfl⟩

theorem hasKey_applyOp (st : PyDict) (op : RunLogOp) (k : String)
    (h : hasKey st k = true) : hasKey (applyOp st op) k = true := by
  unfold applyOp
  rcases setPath_dict_shape ((pySplitSlash op.path).drop 1) op.value st with
    hs | ⟨k', w, hs⟩ <;> rw [hs]
  · exact h
  · exact hasKey_dSet st k k' w h

theorem hasKey_mergePatch (st0 : PyDict) (ops : List RunLogOp) (k : String)
    (h : hasKey st0 k = true) :
    hasKey (mergePatch (some st0) ops) k = true := by
  show hasKey (ops.foldl applyOp st0) k = true
  induction ops generalizing st0 with
  | nil => exact h
  | cons op rest ih =>
    exact ih (applyOp st0 op) (hasKey_applyOp st0 op k h)

theorem processLog_inv (acc : LoopAcc) (p : RunLogPatch) (acc' : LoopAcc)
    (h : processLog acc p = .ok acc') (hinv : LoopInv acc) : LoopInv acc' := by
  obtain ⟨I1, I2, I5, I3, I4⟩ := hinv
  simp only [processLog, bind, Except.bind] at h
  cases h1 : startCheck (mergePatch acc.1 p.ops) acc.2.1 with
  | error e => simp [h1] at h
  | ok r1 =>
    obtain ⟨evs1, y'⟩ := r1
    simp only [h1] at h
    cases h2 : processPaths (mergePatch acc.1 p.ops) (touchedPaths p.ops) with
    | error e => simp [h2] at h
    | ok r2 =>
      obtain ⟨evs2, st2⟩ := r2
      simp only [h2] at h
      cases h3 : rootStreamCheck st2 with
      | error e => simp [h3] at h
      | ok r3 =>
        obtain ⟨evs3, st3⟩ := r3
        simp only [h3, pure, Except.pure, Except.ok.injEq] at h
        subst h
        have hpre2 : dGet st2 "id" = dGet (mergePatch acc.1 p.ops) "id" :=
          processPaths_preserves _ _ _ _ h2 "id" (by decide)
        have hid3 : dGet st3 "id" = dGet st2 "id" := by
          rcases rootStreamCheck_ok _ _ _ h3 with ⟨_, h'⟩ | ⟨e, _, _, h'⟩ <;>
            subst h'
          · rfl
          · exact dGet_dSet_ne _ _ _ _ (by decide)
        obtain ⟨S1, S2, S3⟩ := startCheck_ok _ _ _ _ h1
        by_cases hy : acc.2.1 = true
        · obtain ⟨hevs1, hy'⟩ := S1 hy
          subst hevs1
          obtain ⟨st0, hst0, hid0⟩ := I1.mp hy
          have hidst : hasKey (mergePatch acc.1 p.ops) "id" = true := by
            rw [hst0]
            exact hasKey_mergePatch st0 p.ops "id" hid0
          have hidst3 : hasKey st3 "id" = true := by
            unfold hasKey at hidst ⊢
            rw [hid3, hpre2]
            exact hidst
          obtain ⟨s, mids, hf, hd, hm⟩ := I4 hy
          refine ⟨?_, ?_, ?_, ?_, ?_⟩
          · simp only [hy']
            exact ⟨fun _ => ⟨st3, rfl, hidst3⟩, fun _ => trivial⟩
          · rw [List.countP_append, List.countP_append, List.countP_append,
              countP_start_map_sub, countP_start_map_stream, hy']
            simpa [hy] using I2
          · intro te hte
            simp only [List.map_nil, List.append_nil, List.nil_append,
              List.mem_append] at hte
            rcases hte with (hte | hte) | hte
            · exact I5 te hte
            · obtain ⟨e', _, rfl⟩ := List.mem_map.mp hte
              simp
            · obtain ⟨e', _, rfl⟩ := List.mem_map.mp hte
              simp
          · intro hcontra
            rw [hy'] at hcontra
            exact absurd hcontra (by simp)
          · intro _
            refine ⟨s, mids ++ evs3.map (fun e => (ETag.rootStream, e)), ?_, hd, ?_⟩
            · simp only [List.filter_append, filter_tag_map_sub,
                filter_tag_map_stream, hf]
              simp
            · intro m hm'
              rcases List.mem_append.mp hm' with hm' | hm'
              · exact hm m hm'
              · obtain ⟨e', _, rfl⟩ := List.mem_map.mp hm'
                rfl
        · have hyf : acc.2.1 = false := eq_false_of_ne_true hy
          by_cases hid : hasKey (mergePatch acc.1 p.ops) "id" = true
          · obtain ⟨hy', s, hevs1, hsdata⟩ := S3 hyf hid
            subst hevs1
            have hidst3 : hasKey st3 "id" = true := by
              unfold hasKey at hid ⊢
              rw [hid3, hpre2]
              exact hid
            refine ⟨?_, ?_, ?_, ?_, ?_⟩
            · simp only [hy']
              exact ⟨fun _ => ⟨st3, rfl, hidst3⟩, fun _ => trivial⟩
            · have I2' : List.countP (fun te => te.1.isRootStart) acc.2.2 = 0 := by
                simpa [hyf] using I2
              have c1 : List.countP (fun te => te.1.isRootStart)
                  (List.map (fun e => (ETag.rootStart, e)) [s]) = 1 := by
                simp [List.countP_cons, ETag.isRootStart]
              rw [List.countP_append, List.countP_append, List.countP_append,
                I2', c1, countP_start_map_sub, countP_start_map_stream, hy']
              simp
            · intro te hte
              simp only [List.mem_append] at hte
              rcases hte with ((hte | hte) | hte) | hte
              · exact I5 te hte
              · rcases List.mem_map.mp hte with ⟨e', _, rfl⟩
                simp
              · rcases List.mem_map.mp hte with ⟨e', _, rfl⟩
                simp
              · rcases List.mem_map.mp hte with ⟨e', _, rfl⟩
                simp
            · intro hcontra
              rw [hy'] at hcontra
              exact absurd hcontra (by simp)
            · intro _
              refine ⟨s, evs3.map (fun e => (ETag.rootStream, e)), ?_, hsdata, ?_⟩
              · simp only [List.filter_append, filter_tag_map_sub,
                  filter_tag_map_stream, I3 hyf]
                simp [List.filter, ETag.isSub]
              · intro m hm'
                rcases List.mem_map.mp hm' with ⟨e', _, rfl⟩
                rfl
          · have hidf : hasKey (mergePatch acc.1 p.ops) "id" = false :=
              eq_false_of_ne_true hid
            obtain ⟨hevs1, hy'⟩ := S2 hyf hidf
            subst hevs1
            have hevs3 : evs3 = [] := by
              rcases rootStreamCheck_ok _ _ _ h3 with ⟨h', _⟩ | ⟨e, _, hid2, _⟩
              · exact h'
              · exfalso
                unfold hasKey at hid2 hidf
                rw [hpre2] at hid2
                rw [hidf] at hid2
                exact Bool.false_ne_true hid2
            subst hevs3
            have hidst3 : hasKey st3 "id" = false := by
              unfold hasKey at hidf ⊢
              rw [hid3, hpre2]
              exact hidf
            refine ⟨?_, ?_, ?_, ?_, ?_⟩
            · simp only [hy']
              constructor
              · intro hcontra
                exact absurd hcontra (by simp)
              · rintro ⟨st', hst', hid'⟩
                injection hst' with hst'
                subst hst'
                rw [hidst3] at hid'
                exact hid'
            · have I2' : List.countP (fun te => te.1.isRootStart) acc.2.2 = 0 := by
                simpa [hyf] using I2
              rw [List.countP_append, List.countP_append, List.countP_append,
                countP_start_map_sub, countP_start_map_stream, hy']
              simp [I2']
            · intro te hte
              simp only [List.map_nil, List.append_nil, List.mem_append] at hte
              rcases hte with hte | hte
              · exact I5 te hte
              · rcases List.mem_map.mp hte with ⟨e', _, rfl⟩
                simp
            · intro _
              simp only [List.filter_append, filter_tag_map_sub, I3 hyf]
              simp
            · intro hcontra
              rw [hy'] at hcontra
              exact absurd hcontra (by simp)

theorem foldlM_processLog_inv (patches : List RunLogPatch) :
    ∀ (acc acc' : LoopAcc), LoopInv acc →
      List.foldlM processLog acc patches = .ok acc' → LoopInv acc' := by
  induction patches with
  | nil =>
    intro acc acc' hinv h
    simp only [List.foldlM_nil, pure, Except.pure, Except.ok.injEq] at h
    exact h ▸ hinv
  | cons p rest ih =>
    intro acc acc' hinv h
    simp only [List.foldlM_cons, bind, Except.bind] at h
    cases h1 : processLog acc p with
    | error e => simp [h1] at h
    | ok a1 =>
      simp only [h1] at h
      exact ih a1 acc' (processLog_inv acc p a1 h1 hinv) h

theorem loopRun_inv (patches : List RunLogPatch) (acc' : LoopAcc)
    (h : loopRun patches = .ok acc') : LoopInv acc' := by
  refine foldlM_processLog_inv patches (none, false, []) acc' ?_ h
  refine ⟨by simp, by simp, by simp, fun _ => rfl, fun hc => by simp at hc⟩

theorem getLast?_append_singleton {α : Type} (l : List α) (x : α) :
    (l ++ [x]).getLast? = some x := by
  rw [List.getLast?_append]
  rfl

/-- C3: for every non-empty patch stream that translates successfully,
exactly one root start event (with empty input data) is emitted, it
precedes all root stream events and the root end event; after the patch
source ends exactly one final root end event is emitted, last, with tags
and metadata forced to empty and `data.output` equal to the root's merged
`final_output`; and over every prefix of the loop the start has fired if
and only if the merged root state has an `id`, at most once. -/
theorem root_bracketing (patches : List RunLogPatch) (_hne : patches ≠ [])
    (tevs : List (ETag × StreamEvent)) (h : asEventStreamT patches = .ok tevs) :
    (∃ s mids e st y evs,
       loopRun patches = .ok (some st, y, evs) ∧
       tevs = evs ++ [(ETag.rootEnd, e)] ∧
       tevs.filter (fun te => !te.1.isSub) =
         (ETag.rootStart, s) :: (mids ++ [(ETag.rootEnd, e)]) ∧
       s.data = [] ∧
       (∀ m ∈ mids, m.1 = ETag.rootStream) ∧
       e.tags = Value.list [] ∧ e.metadata = Value.dict [] ∧
       dGet e.data "output" = dGet st "final_output" ∧
       tevs.getLast? = some (ETag.rootEnd, e) ∧
       tevs.countP (fun te => te.1.isRootStart) = 1 ∧
       tevs.countP (fun te => te.1.isRootEnd) = 1) ∧
    (∀ pre acc, loopRun pre = .ok acc →
       ((acc.2.1 = true ↔ ∃ st, acc.1 = some st ∧ hasKey st "id" = true) ∧
        acc.2.2.countP (fun te => te.1.isRootStart) =
          (if acc.2.1 then 1 else 0))) := by
  refine ⟨?_, fun pre acc hpre =>
    ⟨(loopRun_inv pre acc hpre).1, (loopRun_inv pre acc hpre).2.1⟩⟩
  simp only [asEventStreamT, bind, Except.bind] at h
  cases hl : loopRun patches with
  | error err => simp [hl] at h
  | ok acc =>
    obtain ⟨a1, y, evs⟩ := acc
    simp only [hl] at h
    cases a1 with
    | none => simp [finalStep] at h
    | some st =>
      cases hf : finalStep (some st) with
      | error err => simp [hf] at h
      | ok e =>
        simp only [hf, pure, Except.pure, Except.ok.injEq] at h
        subst h
        obtain ⟨htags, hmd, hout, hid⟩ := finalStep_ok_shape st e hf
        obtain ⟨I1, I2, I5, I3, I4⟩ := loopRun_inv patches _ hl
        have hy : y = true := I1.mpr ⟨st, rfl, hid⟩
        obtain ⟨s, mids, hfil, hsd, hmids⟩ := I4 hy
        refine ⟨s, mids, e, st, y, evs, rfl, rfl, ?_, hsd, hmids,
          htags, hmd, hout, getLast?_append_singleton evs _, ?_, ?_⟩
        · rw [List.filter_append]
          simp only at hfil
          rw [hfil]
          simp [ETag.isSub]
        · rw [List.countP_append]
          simp only at I2
          rw [I2, hy]
          simp [List.countP_cons, ETag.isRootStart]
        · rw [List.countP_append]
          have hz : evs.countP (fun te => te.1.isRootEnd) = 0 := by
            rw [List.countP_eq_zero]
            intro te hte
            have hne' := I5 te hte
            cases hte1 : te.1 <;> simp [ETag.isRootEnd]
            exact hne' (by rw [hte1])
          rw [hz]
          simp [List.countP_cons, ETag.isRootEnd]

/-- Witness for C3 on the one-patch stream that assigns the root id. -/
theorem root_bracketing_witness :
    ∃ tevs, asEventStreamT [⟨[⟨"/id", Value.str "r1"⟩]⟩] = .ok tevs ∧
    ((∃ s mids e st y evs,
       loopRun [⟨[⟨"/id", Value.str "r1"⟩]⟩] = .ok (some st, y, evs) ∧
       tevs = evs ++ [(ETag.rootEnd, e)] ∧
       tevs.filter (fun te => !te.1.isSub) =
         (ETag.rootStart, s) :: (mids ++ [(ETag.rootEnd, e)]) ∧
       s.data = [] ∧
       (∀ m ∈ mids, m.1 = ETag.rootStream) ∧
       e.tags = Value.list [] ∧ e.metadata = Value.dict [] ∧
       dGet e.data "output" = dGet st "final_output" ∧
       tevs.getLast? = some (ETag.rootEnd, e) ∧
       tevs.countP (fun te => te.1.isRootStart) = 1 ∧
       tevs.countP (fun te => te.1.isRootEnd) = 1) ∧
    (∀ pre acc, loopRun pre = .ok acc →
       ((acc.2.1 = true ↔ ∃ st, acc.1 = some st ∧ hasKey st "id" = true) ∧
        acc.2.2.countP (fun te => te.1.isRootStart) =
          (if acc.2.1 then 1 else 0)))) :=
  ⟨_, rfl, root_bracketing [⟨[⟨"/id", Value.str "r1"⟩]⟩] (by simp) _ rfl⟩
